import Mathlib

/-!
A shallow embedding of the core of the `rag-indexer` repository
(github.com/nikogura/rag-indexer): the Go-source extractor
(`pkg/indexer/parser.go`), the document model and store client
(`pkg/elasticsearch/models.go`, `pkg/elasticsearch/client.go`), the tree
walker (`pkg/indexer/walker.go`), and the orchestrator
(`pkg/indexer/visitor.go`).  Go strings are modelled as Lean `String`
(file contents as `List Char`), Go `nil` slices as `Option (List _)`
(`none` = nil slice, `some l` = non-nil slice), `time.Time` values as
integer instants.  Fallible operations return `Option`/`Except` values.
-/

namespace RagIndexer

/-! ## Source extractor (`pkg/indexer/parser.go`) -/

/-- One entry of a Go `ast.FieldList`: a result field carries the list of
identifiers bound to it (empty for an unnamed result).  Mirrors the part of
`ast.Field` read by `hasNamedReturns`. -/
structure ResultField where
  names : List String
deriving DecidableEq

/-- The part of a Go `ast.FuncDecl` read by `extractFunctionDoc`: the
function name, the result list of its type (`none` models a nil
`Type.Results`), and the byte offsets of the declaration's start and end
positions in the file. -/
structure FuncDecl where
  name : String
  results : Option (List ResultField)
  pos : Nat
  endPos : Nat
deriving DecidableEq

/-- The loop body of `hasNamedReturns` (parser.go lines 96-101): scan the
result fields, returning true at the first field with at least one bound
identifier. -/
def namedLoop : List ResultField → Bool
  | [] => false
  | f :: rest => if f.names.length > 0 then true else namedLoop rest

/-- `hasNamedReturns` (parser.go lines 90-104): false when the declaration
has no result list, else scan the fields. -/
def hasNamedReturns (funcDecl : FuncDecl) : Bool :=
  match funcDecl.results with
  | none => false
  | some fields => namedLoop fields

/-- Whether `pat` occurs at the head of `s` (the prefix test underlying
Go's `strings.Contains`). -/
def leadsWith : List Char → List Char → Bool
  | _, [] => true
  | [], _ :: _ => false
  | a :: s, b :: pat => a = b && leadsWith s pat

/-- Go `strings.Contains s sub`: whether `sub` occurs contiguously
anywhere in `s`. -/
def textContains : List Char → List Char → Bool
  | s, sub =>
    leadsWith s sub ||
      match s with
      | [] => false
      | _ :: t => textContains t sub

/-- Specification-side predicate: `sub` occurs contiguously in `s`. -/
def OccursIn (sub s : List Char) : Prop :=
  ∃ p q, s = p ++ sub ++ q

/-- `CodeDocument` (models.go lines 7-18), the Function Record persisted
to the store.  `Imports` is `Option (List String)`: `none` models a Go
nil slice, `some l` a present (possibly empty) slice. -/
structure CodeDocument where
  Repo : String
  FilePath : String
  FunctionName : String
  Code : String
  HasNamedReturns : Bool
  HasErrorHandling : Bool
  Package : String
  Imports : Option (List String)
  LintCompliant : Bool
  IndexedAt : Int
deriving DecidableEq

/-- The literal error-guard idiom tested by `extractFunctionDoc`
(parser.go line 83). -/
def errGuard : List Char := "if err != nil".data

/-- `extractFunctionDoc` (parser.go lines 60-87): build the Function
Record for one declaration.  The code text is the exact byte span
`content[start:end]`; the error-handling flag is
`strings.Contains(code, "if err != nil")`; the lint flag is always
false. -/
def extractFunctionDoc (funcDecl : FuncDecl) (content : List Char)
    (repo filePath pkgName : String) (imports : Option (List String))
    (now : Int) : CodeDocument :=
  let codeChars := (content.drop funcDecl.pos).take (funcDecl.endPos - funcDecl.pos)
  { Repo := repo
    FilePath := filePath
    FunctionName := funcDecl.name
    Code := String.mk codeChars
    HasNamedReturns := hasNamedReturns funcDecl
    HasErrorHandling := textContains codeChars errGuard
    Package := pkgName
    Imports := imports
    LintCompliant := false
    IndexedAt := now }

theorem leadsWith_iff (s pat : List Char) :
    leadsWith s pat = true ↔ ∃ q, s = pat ++ q := by
  induction pat generalizing s with
  | nil => simp [leadsWith]
  | cons b pat ih =>
    cases s with
    | nil => simp [leadsWith]
    | cons a s =>
      simp only [leadsWith, Bool.and_eq_true, decide_eq_true_eq, ih]
      constructor
      · rintro ⟨rfl, q, rfl⟩
        exact ⟨q, rfl⟩
      · rintro ⟨q, h⟩
        simp only [List.cons_append, List.cons.injEq] at h
        exact ⟨h.1, q, h.2⟩

theorem textContains_iff (s sub : List Char) :
    textContains s sub = true ↔ OccursIn sub s := by
  induction s with
  | nil =>
    rw [textContains]
    cases sub with
    | nil => simp [leadsWith, OccursIn]
    | cons b t =>
      simp only [leadsWith, Bool.or_false, OccursIn]
      constructor
      · intro h
        exact absurd h (by simp)
      · rintro ⟨p, q, h⟩
        exact absurd h.symm (by simp)
  | cons a s ih =>
    rw [textContains]
    simp only [Bool.or_eq_true, leadsWith_iff, ih, OccursIn]
    constructor
    · rintro (⟨q, h⟩ | ⟨p, q, rfl⟩)
      · exact ⟨[], q, by simpa using h⟩
      · exact ⟨a :: p, q, rfl⟩
    · rintro ⟨p, q, h⟩
      cases p with
      | nil =>
        exact Or.inl ⟨q, by simpa using h⟩
      | cons x p =>
        simp only [List.cons_append, List.cons.injEq] at h
        exact Or.inr ⟨p, q, h.2⟩

theorem namedLoop_iff (l : List ResultField) :
    namedLoop l = true ↔ ∃ f ∈ l, f.names ≠ [] := by
  induction l with
  | nil => simp [namedLoop]
  | cons f rest ih =>
    by_cases h : f.names.length > 0
    · simp only [namedLoop, if_pos h, true_iff]
      exact ⟨f, List.mem_cons_self f rest, by simpa [List.length_pos] using h⟩
    · have hnil : f.names = [] := by
        simpa [List.length_pos] using h
      simp [namedLoop, if_neg h, ih, hnil]

/-! ## Storage document format (`encoding/json` on `CodeDocument`) -/

/-- A JSON value, the storage document format. -/
inductive Json where
  | null
  | bool (b : Bool)
  | num (n : Int)
  | str (s : String)
  | arr (elems : List Json)
  | obj (fields : List (String × Json))

/-- Go `json.Marshal` of a `[]string` field without `omitempty`: a nil
slice becomes JSON `null`, a present slice becomes a JSON array. -/
def marshalImports : Option (List String) → Json
  | none => .null
  | some l => .arr (l.map .str)

/-- Go `json.Marshal` of a `CodeDocument` (models.go lines 7-18): an
object with one member per struct field, in field order, named by the
field's json tag.  The indexing timestamp is modelled as its integer
instant (Go renders an RFC 3339 string, a bijection on in-range
instants). -/
def marshalCodeDocument (d : CodeDocument) : Json :=
  .obj [("repo", .str d.Repo),
        ("file_path", .str d.FilePath),
        ("function_name", .str d.FunctionName),
        ("code", .str d.Code),
        ("has_namedreturns", .bool d.HasNamedReturns),
        ("has_error_handling", .bool d.HasErrorHandling),
        ("package", .str d.Package),
        ("imports", marshalImports d.Imports),
        ("lint_compliant", .bool d.LintCompliant),
        ("indexed_at", .num d.IndexedAt)]

/-- First-match lookup of a member in a JSON object. -/
def lookupField : List (String × Json) → String → Option Json
  | [], _ => none
  | (k, v) :: rest, key => if k = key then some v else lookupField rest key

/-- Go `json.Unmarshal` into a `string` field: a missing member or JSON
`null` leaves the zero value, a JSON string sets it, any other value is a
type error. -/
def decodeStr : Option Json → Option String
  | none => some ""
  | some .null => some ""
  | some (.str s) => some s
  | some _ => none

/-- Go `json.Unmarshal` into a `bool` field. -/
def decodeBool : Option Json → Option Bool
  | none => some false
  | some .null => some false
  | some (.bool b) => some b
  | some _ => none

/-- Go `json.Unmarshal` into the timestamp field (modelled as an integer
instant). -/
def decodeTime : Option Json → Option Int
  | none => some 0
  | some .null => some 0
  | some (.num n) => some n
  | some _ => none

/-- Decode a JSON array of strings. -/
def decodeStrList : List Json → Option (List String)
  | [] => some []
  | .str s :: rest => (decodeStrList rest).map (s :: ·)
  | _ :: _ => none

/-- Go `json.Unmarshal` into a `[]string` field: a missing member or JSON
`null` leaves the slice nil, a JSON array (even an empty one) yields a
present slice. -/
def decodeImports : Option Json → Option (Option (List String))
  | none => some none
  | some .null => some none
  | some (.arr xs) => (decodeStrList xs).map some
  | some _ => none

/-- Go `json.Unmarshal` of a storage document into a `CodeDocument`. -/
def unmarshalCodeDocument : Json → Option CodeDocument
  | .obj fs => do
      let repo ← decodeStr (lookupField fs "repo")
      let filePath ← decodeStr (lookupField fs "file_path")
      let functionName ← decodeStr (lookupField fs "function_name")
      let code ← decodeStr (lookupField fs "code")
      let hasNamed ← decodeBool (lookupField fs "has_namedreturns")
      let hasErr ← decodeBool (lookupField fs "has_error_handling")
      let pkg ← decodeStr (lookupField fs "package")
      let imports ← decodeImports (lookupField fs "imports")
      let lint ← decodeBool (lookupField fs "lint_compliant")
      let indexedAt ← decodeTime (lookupField fs "indexed_at")
      some ⟨repo, filePath, functionName, code, hasNamed, hasErr, pkg,
            imports, lint, indexedAt⟩
  | _ => none

theorem decodeStrList_map_str (l : List String) :
    decodeStrList (l.map .str) = some l := by
  induction l with
  | nil => rfl
  | cons s rest ih => simp [decodeStrList, ih]

theorem decodeImports_marshalImports (o : Option (List String)) :
    decodeImports (some (marshalImports o)) = some o := by
  cases o with
  | none => rfl
  | some l => simp [marshalImports, decodeImports, decodeStrList_map_str]

/-! ## Claim theorems: extractor and document format -/

/-- Claim C5: serializing any Function Record to the storage document
format and deserializing the result yields a record whose every field
equals the original; in particular a multi-element import list is
preserved in order, and an empty-but-present import list decodes to an
empty sequence (`some []`) rather than an absent one (`none`). -/
theorem codeDocument_roundtrip (d : CodeDocument) :
    unmarshalCodeDocument (marshalCodeDocument d) = some d := by
  cases d with
  | mk repo filePath functionName code hasNamed hasErr pkg imports lint indexedAt =>
    simp [marshalCodeDocument, unmarshalCodeDocument, lookupField,
      decodeStr, decodeBool, decodeTime, decodeImports_marshalImports,
      Option.bind]

/-- Claim C6: the extracted record's named-returns flag is true iff the
declaration's result list contains at least one result field bound to an
explicit identifier; a declaration with no result list, or whose every
result field is unnamed, yields false. -/
theorem named_returns_flag_iff (funcDecl : FuncDecl) (content : List Char)
    (repo filePath pkgName : String) (imports : Option (List String)) (now : Int) :
    (extractFunctionDoc funcDecl content repo filePath pkgName imports now).HasNamedReturns
        = true ↔
      ∃ f ∈ funcDecl.results.getD [], f.names ≠ [] := by
  show hasNamedReturns funcDecl = true ↔ _
  cases h : funcDecl.results with
  | none => simp [hasNamedReturns, h]
  | some fields => simp [hasNamedReturns, h, namedLoop_iff]

/-- Claim C7: the extracted record's error-handling flag is true iff the
function's extracted source span (the byte span from the declaration's
start to its end offset) contains the literal idiom "if err != nil"; a
span lacking that literal phrase yields false. -/
theorem error_handling_flag_iff (funcDecl : FuncDecl) (content : List Char)
    (repo filePath pkgName : String) (imports : Option (List String)) (now : Int) :
    (extractFunctionDoc funcDecl content repo filePath pkgName imports now).HasErrorHandling
        = true ↔
      OccursIn errGuard
        ((content.drop funcDecl.pos).take (funcDecl.endPos - funcDecl.pos)) := by
  show textContains _ _ = true ↔ _
  exact textContains_iff _ _

/-! ## Document store client retry (`pkg/elasticsearch/client.go`) -/

/-- `maxRetries` (client.go line 16). -/
def maxRetries : Nat := 3

/-- `retryBackoff` (client.go line 17), in milliseconds. -/
def retryBackoff : Nat := 500

/-- `retryMultiplier` (client.go line 18). -/
def retryMultiplier : Nat := 2

/-- Outcome of one `http.Client.Do` call: `none` is a transport error,
`some st` a response with status code `st`. -/
abbrev AttemptResult := Option Nat

/-- Final outcome of `doRequestWithRetry`: a returned response with a
status below 500, the last transport error after exhausting the loop, or
the terminal "failed after N retries" error carrying the last 5xx
status. -/
inductive RetryOutcome where
  | success (status : Nat)
  | transportFail
  | exhausted (status : Nat)
deriving DecidableEq

/-- What one run of `doRequestWithRetry` did: how many `Do` calls it
issued, the inter-attempt sleep durations in order, and the outcome. -/
structure RunResult where
  attempts : Nat
  delays : List Nat
  outcome : RetryOutcome
deriving DecidableEq

/-- The loop of `doRequestWithRetry` (client.go lines 58-82), from
iteration `attempt` with the current `backoff` value and the sleeps
recorded so far.  On iterations after the first the loop sleeps `backoff`
and then doubles it; a response with status below 500 is returned
immediately; a transport error or a 5xx response falls through to the
next iteration while `attempt <= maxRetries`.  The caller's context is
modelled as never cancelled. -/
def retryGo (f : Nat → AttemptResult) (attempt backoff : Nat)
    (delays : List Nat) : RunResult :=
  let delays1 := if attempt = 0 then delays else delays ++ [backoff]
  let backoff1 := if attempt = 0 then backoff else backoff * retryMultiplier
  match f attempt with
  | some st =>
      if st < 500 then ⟨attempt + 1, delays1, .success st⟩
      else if h : attempt < maxRetries then
        retryGo f (attempt + 1) backoff1 delays1
      else ⟨attempt + 1, delays1, .exhausted st⟩
  | none =>
      if h : attempt < maxRetries then
        retryGo f (attempt + 1) backoff1 delays1
      else ⟨attempt + 1, delays1, .transportFail⟩
termination_by maxRetries + 1 - attempt
decreasing_by all_goals omega

/-- `doRequestWithRetry` (client.go lines 55-90) against an endpoint
whose response to the k-th `Do` call is `f k`. -/
def doRequestWithRetry (f : Nat → AttemptResult) : RunResult :=
  retryGo f 0 retryBackoff []

/-- An attempt result the loop retries: a transport error or a 5xx-class
status. -/
def Retryable (r : AttemptResult) : Prop :=
  r = none ∨ ∃ s, r = some s ∧ 500 ≤ s

instance (r : AttemptResult) : Decidable (Retryable r) := by
  unfold Retryable
  cases r with
  | none => exact .isTrue (Or.inl rfl)
  | some s =>
      by_cases h : 500 ≤ s
      · exact .isTrue (Or.inr ⟨s, rfl, h⟩)
      · refine .isFalse ?_
        rintro (h1 | ⟨t, ht, hle⟩)
        · exact Option.noConfusion h1
        · cases Option.some.injEq .. ▸ ht
          exact h (by simpa using hle)

theorem retryGo_step_zero (f : Nat → AttemptResult) (b : Nat) (ds : List Nat)
    (h : Retryable (f 0)) : retryGo f 0 b ds = retryGo f 1 b ds := by
  rcases h with h | ⟨s, h, hs⟩
  · rw [retryGo]; simp [h, maxRetries]
  · rw [retryGo]; simp [h, maxRetries, Nat.not_lt.mpr hs]

theorem retryGo_step_pos (f : Nat → AttemptResult) (a b : Nat) (ds : List Nat)
    (ha0 : a ≠ 0) (ha : a < maxRetries) (h : Retryable (f a)) :
    retryGo f a b ds = retryGo f (a + 1) (b * retryMultiplier) (ds ++ [b]) := by
  rcases h with h | ⟨s, h, hs⟩
  · rw [retryGo]; simp [h, ha0, ha]
  · rw [retryGo]; simp [h, ha0, ha, Nat.not_lt.mpr hs]

theorem retryGo_done_zero (f : Nat → AttemptResult) (b : Nat) (ds : List Nat)
    (s : Nat) (h : f 0 = some s) (hs : s < 500) :
    retryGo f 0 b ds = ⟨1, ds, .success s⟩ := by
  rw [retryGo]; simp [h, hs]

theorem retryGo_done_pos (f : Nat → AttemptResult) (a b : Nat) (ds : List Nat)
    (s : Nat) (ha0 : a ≠ 0) (h : f a = some s) (hs : s < 500) :
    retryGo f a b ds = ⟨a + 1, ds ++ [b], .success s⟩ := by
  rw [retryGo]; simp [h, hs, ha0]

theorem retryGo_attempts_le (f : Nat → AttemptResult) :
    ∀ (n a b : Nat) (ds : List Nat), a + n = maxRetries →
      (retryGo f a b ds).attempts ≤ maxRetries + 1 := by
  intro n
  induction n with
  | zero =>
    intro a b ds ha
    rw [retryGo]
    rcases h : f a with _ | s
    · simp_all [maxRetries]
    · simp_all [maxRetries]
      split <;> simp [maxRetries]
  | succ n ih =>
    intro a b ds ha
    have hmax : maxRetries = 3 := rfl
    have ha3 : a < maxRetries := by omega
    rw [retryGo]
    rcases h : f a with _ | s
    · simpa [ha3] using ih (a + 1) _ _ (by omega)
    · by_cases hs : s < 500
      · simp [hs]; omega
      · simpa [hs, ha3] using ih (a + 1) _ _ (by omega)

theorem retryGo_succeeds (f : Nat → AttemptResult) (k st : Nat)
    (hk : k ≤ maxRetries) (hret : ∀ j < k, Retryable (f j))
    (hst : f k = some st) (hlt : st < 500) :
    doRequestWithRetry f =
      ⟨k + 1,
       (List.range k).map (fun i => retryBackoff * retryMultiplier ^ i),
       .success st⟩ := by
  unfold doRequestWithRetry
  have hmax : maxRetries = 3 := rfl
  have hk3 : k ≤ 3 := hmax ▸ hk
  interval_cases k
  · rw [retryGo_done_zero f _ _ st hst hlt]; rfl
  · rw [retryGo_step_zero f _ _ (hret 0 (by omega)),
        retryGo_done_pos f 1 _ _ st (by omega) hst hlt]
    rfl
  · rw [retryGo_step_zero f _ _ (hret 0 (by omega)),
        retryGo_step_pos f 1 _ _ (by omega) (by omega) (hret 1 (by omega)),
        retryGo_done_pos f 2 _ _ st (by omega) hst hlt]
    rfl
  · rw [retryGo_step_zero f _ _ (hret 0 (by omega)),
        retryGo_step_pos f 1 _ _ (by omega) (by omega) (hret 1 (by omega)),
        retryGo_step_pos f 2 _ _ (by omega) (by omega) (hret 2 (by omega)),
        retryGo_done_pos f 3 _ _ st (by omega) hst hlt]
    rfl

/-- Claim C2: the retry wrapper retries transport errors and 5xx
responses with an inter-attempt delay starting at the fixed base and
doubling each attempt, up to the fixed attempt bound; a response with
status below 500 is returned immediately with no further attempts.  In
particular 500-500-200 yields exactly three attempts with increasing
inter-attempt delay and succeeds, and a 400 response yields exactly one
attempt. -/
theorem retry_discipline :
    (∀ f : Nat → AttemptResult, f 0 = some 500 → f 1 = some 500 → f 2 = some 200 →
       doRequestWithRetry f =
           ⟨3, [retryBackoff, retryBackoff * retryMultiplier], .success 200⟩ ∧
         (doRequestWithRetry f).delays.Chain' (· < ·)) ∧
    (∀ f : Nat → AttemptResult, f 0 = some 400 →
       doRequestWithRetry f = ⟨1, [], .success 400⟩) ∧
    (∀ (f : Nat → AttemptResult) (k st : Nat), k ≤ maxRetries →
       (∀ j < k, Retryable (f j)) → f k = some st → st < 500 →
       doRequestWithRetry f =
         ⟨k + 1,
          (List.range k).map (fun i => retryBackoff * retryMultiplier ^ i),
          .success st⟩) ∧
    (∀ f : Nat → AttemptResult, (doRequestWithRetry f).attempts ≤ maxRetries + 1) := by
  refine ⟨?_, ?_, ?_, ?_⟩
  · intro f h0 h1 h2
    have hret : ∀ j < 2, Retryable (f j) := by
      intro j hj
      interval_cases j
      · exact Or.inr ⟨500, h0, by omega⟩
      · exact Or.inr ⟨500, h1, by omega⟩
    have := retryGo_succeeds f 2 200 (by decide) hret h2 (by omega)
    constructor
    · simpa using this
    · rw [this]
      simp [retryBackoff, retryMultiplier, List.range_succ]
  · intro f h0
    simpa using retryGo_succeeds f 0 400 (by decide) (by omega) h0 (by omega)
  · exact fun f k st hk hret hst hlt => retryGo_succeeds f k st hk hret hst hlt
  · intro f
    exact retryGo_attempts_le f 3 0 retryBackoff [] rfl

/-- Endpoint returning 500 on the first two attempts and 200 on the
third. -/
def scenFlaky : Nat → AttemptResult := fun k => if k < 2 then some 500 else some 200

/-- Endpoint returning 400 on every attempt. -/
def scenBadRequest : Nat → AttemptResult := fun _ => some 400

theorem retry_discipline_witness :
    doRequestWithRetry scenFlaky = ⟨3, [500, 1000], .success 200⟩ ∧
      doRequestWithRetry scenBadRequest = ⟨1, [], .success 400⟩ :=
  ⟨(retry_discipline.1 scenFlaky rfl rfl rfl).1,
   retry_discipline.2.1 scenBadRequest rfl⟩

/-! ## Index provisioning (`pkg/elasticsearch/models.go`) -/

/-- The fixed index schema constant `indexMapping` (models.go lines
45-65): settings one shard, zero replicas, a 30 second refresh interval,
and the fixed field mapping. -/
structure IndexSchema where
  shards : Nat
  replicas : Nat
  refreshIntervalSec : Nat
deriving DecidableEq

/-- The schema `EnsureIndex` provisions. -/
def indexMapping : IndexSchema := ⟨1, 0, 30⟩

/-- The store state seen by the client: the named index's schema, when
the index exists. -/
structure StoreState where
  index : Option IndexSchema
deriving DecidableEq

/-- Response of the store to the HEAD existence request. -/
inductive HeadResp where
  | ok
  | notFound
  | other (code : Nat)
deriving DecidableEq

/-- How a well-behaved store answers the HEAD existence request issued by
`indexExists`: 200 when the index exists, 404 when it does not. -/
def headFor (s : StoreState) : HeadResp :=
  if s.index.isSome then .ok else .notFound

/-- `indexExists` (models.go lines 114-146): status 200 means the index
exists, 404 means it does not, and any other status is an indeterminate
error ("unexpected status code"). -/
def indexExists : HeadResp → Except Unit Bool
  | .ok => .ok true
  | .notFound => .ok false
  | .other _ => .error ()

/-- `EnsureIndex` (models.go lines 69-111) run against a store whose HEAD
response is `head`: check existence first; on an indeterminate error
return the error without creating anything; when the index exists return
without error; otherwise issue the PUT creating the index with the fixed
schema.  Returns the new store state, whether a creation request was
issued, and the error, `none` on success. -/
def ensureIndexWith (head : HeadResp) (s : StoreState) :
    StoreState × Bool × Option Unit :=
  match indexExists head with
  | .error _ => (s, false, some ())
  | .ok true => (s, false, none)
  | .ok false => (⟨some indexMapping⟩, true, none)

/-- `EnsureIndex` against a well-behaved store. -/
def ensureIndex (s : StoreState) : StoreState × Bool × Option Unit :=
  ensureIndexWith (headFor s) s

/-! ## Repository synchronization (`pkg/indexer/visitor.go`) -/

/-- The part of the configuration read by `CloneRepos`. -/
structure GitConfig where
  gitOrg : String
  gitRepos : List String
deriving DecidableEq

/-- Errors `CloneRepos` can return: `ErrGitConfigRequired` (visitor.go
line 65) or a wrapped `MkdirAll` failure. -/
inductive CloneReposErr where
  | configRequired
  | mkdirFailed
deriving DecidableEq

/-- What one run of `CloneRepos` (visitor.go lines 88-108) did: its
return value, the repositories for which `cloneOrUpdateRepo` was invoked
(in order), and the repositories whose failure was logged.  `cloneFails`
tells, per repository, whether its `cloneOrUpdateRepo` call failed;
`mkdirOk` whether `MkdirAll` on the repos root succeeded. -/
structure CloneReposRun where
  err : Option CloneReposErr
  attempted : List String
  loggedFailures : List String
deriving DecidableEq

/-- `CloneRepos` (visitor.go lines 88-108): fail with
`ErrGitConfigRequired` when the organization or the repository list is
empty; fail when the root directory cannot be created; otherwise invoke
`cloneOrUpdateRepo` on every configured repository, logging failures
without aborting, and return nil. -/
def cloneRepos (cfg : GitConfig) (mkdirOk : Bool)
    (cloneFails : String → Bool) : CloneReposRun :=
  if cfg.gitOrg = "" ∨ cfg.gitRepos = [] then
    ⟨some .configRequired, [], []⟩
  else if ¬ mkdirOk then
    ⟨some .mkdirFailed, [], []⟩
  else
    ⟨none, cfg.gitRepos, cfg.gitRepos.filter cloneFails⟩

/-! ## Claim theorems: provisioning and synchronization -/

/-- Claim C8: index provisioning is idempotent: from a well-behaved
store, two invocations of `EnsureIndex` leave exactly one index with the
fixed schema; on the second invocation the existence check reports the
index present, no creation request is issued, and no error is returned.
When the existence check reports an indeterminate error, no creation is
attempted, the state is unchanged, and the error is returned. -/
theorem ensureIndex_idempotent :
    (∀ s : StoreState, s.index = none ∨ s.index = some indexMapping →
       (ensureIndex s).1.index = some indexMapping ∧
         headFor (ensureIndex s).1 = .ok ∧
         ensureIndex (ensureIndex s).1 = ((ensureIndex s).1, false, none)) ∧
    (∀ (s : StoreState) (c : Nat),
       ensureIndexWith (.other c) s = (s, false, some ())) := by
  constructor
  · rintro ⟨idx⟩ (h | h) <;>
      simp_all [ensureIndex, ensureIndexWith, headFor, indexExists]
  · intro s c
    rfl

theorem ensureIndex_idempotent_witness :
    (ensureIndex ⟨none⟩).1.index = some indexMapping ∧
      headFor (ensureIndex ⟨none⟩).1 = .ok ∧
      ensureIndex (ensureIndex ⟨none⟩).1 = ((ensureIndex ⟨none⟩).1, false, none) :=
  ensureIndex_idempotent.1 ⟨none⟩ (Or.inl rfl)

/-- Claim C9: `CloneRepos` fails with the configuration-required error
iff the organization is empty or the repository list is empty; otherwise,
when the root directory is created, it attempts every configured
repository independently, failures being logged rather than aborting the
rest; a root-directory failure yields the mkdir error instead. -/
theorem cloneRepos_spec :
    (∀ (cfg : GitConfig) (mk : Bool) (cf : String → Bool),
       (cloneRepos cfg mk cf).err = some .configRequired ↔
         cfg.gitOrg = "" ∨ cfg.gitRepos = []) ∧
    (∀ (cfg : GitConfig) (cf : String → Bool),
       ¬ (cfg.gitOrg = "" ∨ cfg.gitRepos = []) →
       (cloneRepos cfg true cf).attempted = cfg.gitRepos ∧
         (cloneRepos cfg true cf).loggedFailures = cfg.gitRepos.filter cf) ∧
    (∀ (cfg : GitConfig) (cf : String → Bool),
       ¬ (cfg.gitOrg = "" ∨ cfg.gitRepos = []) →
       (cloneRepos cfg false cf).err = some .mkdirFailed) := by
  refine ⟨?_, ?_, ?_⟩
  · intro cfg mk cf
    by_cases h : cfg.gitOrg = "" ∨ cfg.gitRepos = []
    · simp [cloneRepos, h]
    · cases mk <;> simp [cloneRepos, h]
  · intro cfg cf h
    simp [cloneRepos, h]
  · intro cfg cf h
    simp [cloneRepos, h]

theorem cloneRepos_spec_witness :
    ((cloneRepos ⟨"org", ["a", "b"]⟩ true (fun _ => true)).err = some .configRequired ↔
        "org" = "" ∨ (["a", "b"] : List String) = []) ∧
      (cloneRepos ⟨"org", ["a", "b"]⟩ true (fun _ => true)).attempted = ["a", "b"] :=
  ⟨cloneRepos_spec.1 ⟨"org", ["a", "b"]⟩ true (fun _ => true),
   (cloneRepos_spec.2.1 ⟨"org", ["a", "b"]⟩ (fun _ => true) (by simp)).1⟩

/-- Claim C10: with non-empty configuration and a creatable root
directory, `CloneRepos` returns nil even when every configured repository
fails: per-repository failures are only logged, so the return value
cannot distinguish all-failed from all-succeeded. -/
theorem cloneRepos_swallows_repo_failures (cfg : GitConfig)
    (hOrg : cfg.gitOrg ≠ "") (hRepos : cfg.gitRepos ≠ []) :
    (cloneRepos cfg true (fun _ => true)).err = none ∧
      (cloneRepos cfg true (fun _ => true)).loggedFailures = cfg.gitRepos ∧
      (cloneRepos cfg true (fun _ => true)).err =
        (cloneRepos cfg true (fun _ => false)).err := by
  have h : ¬ (cfg.gitOrg = "" ∨ cfg.gitRepos = []) := by
    rintro (h | h) <;> simp_all
  simp [cloneRepos, h]

theorem cloneRepos_swallows_repo_failures_witness :
    (cloneRepos ⟨"org", ["a", "b"]⟩ true (fun _ => true)).err = none ∧
      (cloneRepos ⟨"org", ["a", "b"]⟩ true (fun _ => true)).loggedFailures = ["a", "b"] ∧
      (cloneRepos ⟨"org", ["a", "b"]⟩ true (fun _ => true)).err =
        (cloneRepos ⟨"org", ["a", "b"]⟩ true (fun _ => false)).err :=
  cloneRepos_swallows_repo_failures ⟨"org", ["a", "b"]⟩ (by simp) (by simp)

/-! ## Tree walker (`pkg/indexer/walker.go` with Go `filepath.Walk`) -/

/-- A node of the repository file tree.  A file carries the result of
`indexFile` on it, were it attempted: `none` a parse or indexing failure,
`some k` a successful pass indexing `k` functions.  A directory carries
whether reading its entry list fails (e.g. permission denied) and its
entries in order. -/
inductive FNode where
  | file (name : String) (res : Option Nat)
  | dir (name : String) (readFails : Bool) (children : List FNode)

/-- The value `fileWalker.walk` returns for one path: nil, the
`filepath.SkipDir` sentinel, or a traversal error propagated from
`pathErr`. -/
inductive WRes where
  | nil
  | skipDir
  | err
deriving DecidableEq

/-- Go `filepath.Ext` of a file name (the suffix starting at the final
dot, empty when there is none). -/
def extOf (name : String) : String :=
  extChars name.data.reverse []
where
  /-- Scan the reversed name up to the final dot, accumulating the
  characters after it. -/
  extChars : List Char → List Char → String
    | [], _ => ""
    | c :: rest, acc =>
      if c = '.' then String.mk ('.' :: acc) else extChars rest (c :: acc)

/-- `fileWalker.walk` (walker.go lines 24-48) on a regular file reached
without a traversal error: skip files whose extension is not ".go"; a
failed `indexFile` is logged and counted as a parse error but returns
nil; a successful one adds its function count. -/
def fnFile (name : String) (res : Option Nat) : Nat × WRes :=
  if extOf name ≠ ".go" then (0, .nil)
  else
    match res with
    | none => (0, .nil)
    | some k => (k, .nil)

/-- `fileWalker.walk` (walker.go lines 24-48) on a directory: a traversal
error (`pathErr`) is returned as is; a directory named "vendor" or ".git"
returns `filepath.SkipDir`; otherwise nil (a directory whose name
carries a ".go" extension has `indexFile` attempted on it, which fails
and is swallowed). -/
def fnDir (name : String) (readFails : Bool) : WRes :=
  if readFails then .err
  else if name = "vendor" ∨ name = ".git" then .skipDir
  else .nil

mutual

/-- Go `filepath.Walk`'s recursive `walk` on one node, with
`fileWalker.walk` as the callback: returns the functions counted within
(the walker's `totalCount` accumulation) and the error value the
traversal of this node produces.  For a directory the callback runs
first (receiving the directory-read error when reading fails); `SkipDir`
prunes the subtree; otherwise the entries are walked in order. -/
def walkNode : FNode → Nat × WRes
  | .file name res => fnFile name res
  | .dir name readFails children =>
    match fnDir name readFails with
    | .err => (0, .err)
    | .skipDir => (0, .skipDir)
    | .nil => walkList children

/-- Go `filepath.Walk`'s loop over a directory's entries: an error from
an entry aborts the remaining entries and propagates; `SkipDir` from a
directory entry is swallowed and the loop continues; `SkipDir` from a
file entry propagates.  Counts accumulated before an abort are kept
(they live in the walker's state). -/
def walkList : List FNode → Nat × WRes
  | [] => (0, .nil)
  | c :: rest =>
    match walkNode c with
    | (k, .err) => (k, .err)
    | (k, .skipDir) =>
      match c with
      | .file _ _ => (k, .skipDir)
      | .dir _ _ _ =>
        match walkList rest with
        | (k2, r2) => (k + k2, r2)
    | (k, .nil) =>
      match walkList rest with
      | (k2, r2) => (k + k2, r2)

end

/-- `filepath.Walk` from the root, as used by `walkAndIndexRepo`
(visitor.go lines 205-218): a `SkipDir` escaping the root is converted to
nil; the walker's accumulated count is reported either way.  Returns
(total functions, whether the walk returned an error). -/
def filepathWalk (root : FNode) : Nat × Bool :=
  match walkNode root with
  | (k, .err) => (k, true)
  | (k, _) => (k, false)

mutual

/-- Replace the contents of every directory literally named "vendor" or
".git", at any depth, by the empty list.  A walk agreeing on a tree and
its pruned form indexes nothing from inside those subtrees. -/
def pruneVC : FNode → FNode
  | .file n r => .file n r
  | .dir n e cs =>
    if n = "vendor" ∨ n = ".git" then .dir n e [] else .dir n e (pruneList cs)

/-- `pruneVC` on each element. -/
def pruneList : List FNode → List FNode
  | [] => []
  | c :: rest => pruneVC c :: pruneList rest

end

theorem walk_prune_aux (n : Nat) :
    (∀ t : FNode, sizeOf t ≤ n → walkNode (pruneVC t) = walkNode t) ∧
      (∀ l : List FNode, sizeOf l ≤ n → walkList (pruneList l) = walkList l) := by
  induction n with
  | zero =>
    constructor
    · intro t ht
      cases t <;> simp_arith at ht
    · intro l hl
      cases l <;> simp_arith at hl
  | succ n ih =>
    constructor
    · intro t ht
      cases t with
      | file name res => rfl
      | dir name e cs =>
        by_cases hn : name = "vendor" ∨ name = ".git"
        · cases e <;> simp [pruneVC, hn, walkNode, fnDir]
        · have hcs : sizeOf cs ≤ n := by
            simp_arith at ht
            omega
          cases e with
          | true => simp [pruneVC, hn, walkNode, fnDir]
          | false =>
            simp only [pruneVC, hn, if_false, walkNode, fnDir]
            simpa [hn] using ih.2 cs hcs
    · intro l hl
      cases l with
      | nil => rfl
      | cons c rest =>
        have hc : sizeOf c ≤ n := by
          simp_arith at hl
          omega
        have hrest : sizeOf rest ≤ n := by
          simp_arith at hl
          omega
        show walkList (pruneVC c :: pruneList rest) = walkList (c :: rest)
        rw [walkList, walkList, ih.1 c hc, ih.2 rest hrest]
        cases c with
        | file name res => rfl
        | dir name e cs =>
          rcases h : walkNode (.dir name e cs) with ⟨k, r⟩
          by_cases hn : name = "vendor" ∨ name = ".git"
          · simp only [pruneVC, if_pos hn]
          · simp only [pruneVC, if_neg hn]

theorem walkList_append (l1 l2 : List FNode) (k : Nat)
    (h : walkList l1 = (k, .nil)) :
    walkList (l1 ++ l2) = (k + (walkList l2).1, (walkList l2).2) := by
  induction l1 generalizing k with
  | nil =>
    rw [walkList] at h
    cases h
    simp [Nat.zero_add]
  | cons c rest ih =>
    rcases hc : walkNode c with ⟨k1, r1⟩
    rcases hr : walkList rest with ⟨k2, r2⟩
    rw [walkList, hc] at h
    cases r1 with
    | err => cases h
    | skipDir =>
      cases c with
      | file name res => cases h
      | dir name e cs =>
        rw [hr] at h
        cases h
        rw [List.cons_append, walkList, hc, ih k2 hr]
        simp [Nat.add_assoc]
    | nil =>
      rw [hr] at h
      cases h
      rw [List.cons_append, walkList, hc, ih k2 hr]
      simp [Nat.add_assoc]

/-- Claim C4: the walk of any tree gives exactly the same result as the
walk of the tree with the contents of every directory literally named
".git" or "vendor" (at any depth) removed — so zero functions are indexed
from anywhere inside such a directory's subtree, while eligible files
outside it are still indexed unchanged; and such a directory itself
answers the callback with the subtree-pruning `SkipDir` sentinel. -/
theorem walker_prunes_vendored_subtrees :
    (∀ t : FNode, walkNode (pruneVC t) = walkNode t) ∧
      (∀ cs : List FNode, walkNode (.dir ".git" false cs) = (0, .skipDir)) ∧
      (∀ cs : List FNode, walkNode (.dir "vendor" false cs) = (0, .skipDir)) := by
  refine ⟨fun t => (walk_prune_aux (sizeOf t)).1 t le_rfl, fun cs => ?_, fun cs => ?_⟩ <;>
    simp [walkNode, fnDir]

/-- A tree whose first entry is a directory that fails to read
(permission denied) and whose sibling directory holds a Go file with two
functions. -/
def walkCounterTree : FNode :=
  .dir "repo" false
    [.dir "locked" true [], .dir "b" false [.file "f.go" (some 2)]]

/-- Claim C3 is false on the code: with a traversal error on the non-root
directory "locked", the whole walk aborts with the error and the sibling
directory's two successfully indexed functions are not counted — the
claim predicts count 2 and no walk failure, the code gives count 0 and a
failed walk. -/
theorem walk_counterexample :
    filepathWalk walkCounterTree = (0, true) ∧
      filepathWalk walkCounterTree ≠ (2, false) := by
  decide

/-- Claim C3 (amended): a directory-traversal error on any directory —
root or not — aborts the entire walk, because the callback returns the
traversal error and `filepath.Walk` propagates it: the walk fails, and
only the functions counted before the failing entry are reported; entries
after it (sibling and subsequent directories) are never visited, whatever
they contain. -/
theorem walk_error_aborts_walk (rootName badName : String)
    (pre post cs : List FNode) (acc : Nat)
    (hv : rootName ≠ "vendor") (hg : rootName ≠ ".git")
    (hpre : walkList pre = (acc, .nil)) :
    filepathWalk (.dir rootName false (pre ++ .dir badName true cs :: post)) =
      (acc, true) := by
  have hbad : walkNode (.dir badName true cs) = (0, .err) := by
    simp [walkNode, fnDir]
  have htail : walkList (FNode.dir badName true cs :: post) = (0, .err) := by
    rw [walkList, hbad]
  have := walkList_append pre (FNode.dir badName true cs :: post) acc hpre
  rw [htail] at this
  rw [filepathWalk, walkNode]
  simp [fnDir, hv, hg, this]

theorem walk_error_aborts_walk_witness :
    filepathWalk
        (.dir "repo" false
          ([.file "a.go" (some 3)] ++
            FNode.dir "locked" true [.file "x.go" (some 9)] ::
              [.dir "c" false [.file "g.go" (some 7)]])) =
      (3, true) :=
  walk_error_aborts_walk "repo" "locked" [.file "a.go" (some 3)]
    [.dir "c" false [.file "g.go" (some 7)]] [.file "x.go" (some 9)] 3
    (by decide) (by decide) (by decide)

/-! ## Indexing orchestrator (`pkg/indexer/visitor.go`, `IndexAllRepos`)

`IndexAllRepos` (visitor.go lines 138-165) takes the indexer's mutex for
its whole duration (a deferred unlock covers every exit path), reads the
repository root's entries, and accumulates per-entry counts.  Two
overlapping invocations are modelled as two threads, each running the
body once, interleaved by a step relation; the mutex is the `lock`
field. -/

/-- What one top-level entry of the repository root contributes to an
invocation's loop: a non-directory entry is skipped, a failed
`indexRepoIfValid` is logged and skipped, a successful one adds its
count. -/
inductive Entry where
  | notDir
  | indexErr
  | ok (k : Nat)
deriving DecidableEq

/-- The count an entry adds to `totalCount`. -/
def contrib : Entry → Nat
  | .notDir => 0
  | .indexErr => 0
  | .ok k => k

/-- Total of the contributions of a list of entries. -/
def sumContrib : List Entry → Nat
  | [] => 0
  | e :: rest => contrib e + sumContrib rest

/-- Control state of one `IndexAllRepos` invocation: not yet started;
holding the lock before `ReadDir`; looping with the remaining entries
and the accumulated `totalCount`; returned with the `ReadDir` error; or
returned successfully with its total. -/
inductive TState where
  | idle
  | acquired
  | looping (rem : List Entry) (acc : Nat)
  | doneErr
  | doneOk (total : Nat)
deriving DecidableEq

/-- State of the two-invocation system: the mutex owner (if held) and
each thread's control state. -/
structure CState where
  lock : Option Bool
  th : Bool → TState

/-- The interleaving semantics of two overlapping `IndexAllRepos`
invocations, parameterized by each invocation's `ReadDir` outcome
(`none`: the read fails and the invocation returns the error; `some es`:
the entries).  Acquiring blocks while the lock is held (no step exists),
it never fails; the deferred unlock releases the lock on both the error
return and the success return. -/
inductive Step (reads : Bool → Option (List Entry)) : CState → CState → Prop where
  | acquire (s : CState) (t : Bool) :
      s.th t = .idle → s.lock = none →
      Step reads s ⟨some t, fun u => if u = t then .acquired else s.th u⟩
  | readFail (s : CState) (t : Bool) :
      s.th t = .acquired → reads t = none →
      Step reads s ⟨none, fun u => if u = t then .doneErr else s.th u⟩
  | readOk (s : CState) (t : Bool) (es : List Entry) :
      s.th t = .acquired → reads t = some es →
      Step reads s ⟨s.lock, fun u => if u = t then .looping es 0 else s.th u⟩
  | process (s : CState) (t : Bool) (e : Entry) (rem : List Entry) (acc : Nat) :
      s.th t = .looping (e :: rem) acc →
      Step reads s ⟨s.lock, fun u => if u = t then .looping rem (acc + contrib e) else s.th u⟩
  | finish (s : CState) (t : Bool) (acc : Nat) :
      s.th t = .looping [] acc →
      Step reads s ⟨none, fun u => if u = t then .doneOk acc else s.th u⟩

/-- Both invocations pending, lock free. -/
def initState : CState := ⟨none, fun _ => .idle⟩

/-- States the two-invocation system can reach. -/
def Reachable (reads : Bool → Option (List Entry)) (s : CState) : Prop :=
  Relation.ReflTransGen (Step reads) initState s

/-- A thread inside the lock-guarded body. -/
def InCrit : TState → Prop
  | .acquired => True
  | .looping _ _ => True
  | _ => False

/-- A thread whose invocation has returned (either exit path). -/
def IsDone : TState → Prop
  | .doneErr => True
  | .doneOk _ => True
  | _ => False

/-- Inductive invariant: the lock-holder discipline, plus accounting tying
each loop in progress and each completed invocation to its `ReadDir`
outcome. -/
def Inv (reads : Bool → Option (List Entry)) (s : CState) : Prop :=
  (∀ t, InCrit (s.th t) → s.lock = some t) ∧
  (∀ t, s.lock = some t → InCrit (s.th t)) ∧
  (∀ t rem acc, s.th t = .looping rem acc →
    ∃ es, reads t = some es ∧ acc + sumContrib rem = sumContrib es) ∧
  (∀ t n, s.th t = .doneOk n → ∃ es, reads t = some es ∧ n = sumContrib es) ∧
  (∀ t, s.th t = .doneErr → reads t = none)

theorem inv_init (reads : Bool → Option (List Entry)) : Inv reads initState := by
  refine ⟨?_, ?_, ?_, ?_, ?_⟩ <;> intro t <;> simp [initState, InCrit]

theorem inv_step {reads : Bool → Option (List Entry)} {s s' : CState}
    (hInv : Inv reads s) (hstep : Step reads s s') : Inv reads s' := by
  obtain ⟨h1, h2, h3, h4, h5⟩ := hInv
  cases hstep with
  | acquire t ht hl =>
    refine ⟨?_, ?_, ?_, ?_, ?_⟩
    · intro u hu
      by_cases he : u = t
      · simp [he]
      · simp only [if_neg he] at hu
        exact absurd (hl ▸ h1 u hu) (by simp)
    · intro u hu
      simp only [Option.some.injEq] at hu
      subst hu
      simp [InCrit]
    · intro u rem acc hu
      by_cases he : u = t
      · subst he
        simp at hu
      · simp only [if_neg he] at hu
        exact h3 u rem acc hu
    · intro u n hu
      by_cases he : u = t
      · subst he
        simp at hu
      · simp only [if_neg he] at hu
        exact h4 u n hu
    · intro u hu
      by_cases he : u = t
      · subst he
        simp at hu
      · simp only [if_neg he] at hu
        exact h5 u hu
  | readFail t ht hr =>
    have hlt : s.lock = some t := h1 t (by rw [ht]; trivial)
    refine ⟨?_, ?_, ?_, ?_, ?_⟩
    · intro u hu
      by_cases he : u = t
      · subst he
        simp [InCrit] at hu
      · simp only [if_neg he] at hu
        have := h1 u hu
        rw [hlt] at this
        exact absurd (Option.some.inj this).symm he
    · intro u hu
      simp at hu
    · intro u rem acc hu
      by_cases he : u = t
      · subst he
        simp at hu
      · simp only [if_neg he] at hu
        exact h3 u rem acc hu
    · intro u n hu
      by_cases he : u = t
      · subst he
        simp at hu
      · simp only [if_neg he] at hu
        exact h4 u n hu
    · intro u hu
      by_cases he : u = t
      · subst he
        exact hr
      · simp only [if_neg he] at hu
        exact h5 u hu
  | readOk t es ht hr =>
    refine ⟨?_, ?_, ?_, ?_, ?_⟩
    · intro u hu
      by_cases he : u = t
      · subst he
        exact h1 u (by rw [ht]; trivial)
      · simp only [if_neg he] at hu
        exact h1 u hu
    · intro u hu
      simp only [] at hu
      by_cases he : u = t
      · simp [he, InCrit]
      · simp only [if_neg he]
        exact h2 u hu
    · intro u rem acc hu
      by_cases he : u = t
      · subst he
        simp only [if_pos rfl] at hu
        obtain ⟨h9, h10⟩ := TState.looping.inj hu
        refine ⟨es, hr, ?_⟩
        rw [← h9, ← h10]
        simp
      · simp only [if_neg he] at hu
        exact h3 u rem acc hu
    · intro u n hu
      by_cases he : u = t
      · subst he
        simp at hu
      · simp only [if_neg he] at hu
        exact h4 u n hu
    · intro u hu
      by_cases he : u = t
      · subst he
        simp at hu
      · simp only [if_neg he] at hu
        exact h5 u hu
  | process t e rem acc ht =>
    refine ⟨?_, ?_, ?_, ?_, ?_⟩
    · intro u hu
      by_cases he : u = t
      · subst he
        exact h1 u (by rw [ht]; trivial)
      · simp only [if_neg he] at hu
        exact h1 u hu
    · intro u hu
      simp only [] at hu
      by_cases he : u = t
      · simp [he, InCrit]
      · simp only [if_neg he]
        exact h2 u hu
    · intro u rem1 acc1 hu
      by_cases he : u = t
      · subst he
        simp only [if_pos rfl] at hu
        obtain ⟨h9, h10⟩ := TState.looping.inj hu
        obtain ⟨es, hes, hsum⟩ := h3 u (e :: rem) acc ht
        refine ⟨es, hes, ?_⟩
        rw [← h9, ← h10]
        rw [sumContrib] at hsum
        omega
      · simp only [if_neg he] at hu
        exact h3 u rem1 acc1 hu
    · intro u n hu
      by_cases he : u = t
      · subst he
        simp at hu
      · simp only [if_neg he] at hu
        exact h4 u n hu
    · intro u hu
      by_cases he : u = t
      · subst he
        simp at hu
      · simp only [if_neg he] at hu
        exact h5 u hu
  | finish t acc ht =>
    have hlt : s.lock = some t := h1 t (by rw [ht]; trivial)
    refine ⟨?_, ?_, ?_, ?_, ?_⟩
    · intro u hu
      by_cases he : u = t
      · subst he
        simp [InCrit] at hu
      · simp only [if_neg he] at hu
        have := h1 u hu
        rw [hlt] at this
        exact absurd (Option.some.inj this).symm he
    · intro u hu
      simp at hu
    · intro u rem1 acc1 hu
      by_cases he : u = t
      · subst he
        simp at hu
      · simp only [if_neg he] at hu
        exact h3 u rem1 acc1 hu
    · intro u n hu
      by_cases he : u = t
      · subst he
        simp only [if_pos rfl] at hu
        obtain h9 := TState.doneOk.inj hu
        obtain ⟨es, hes, hsum⟩ := h3 u [] acc ht
        refine ⟨es, hes, ?_⟩
        rw [← h9]
        rw [sumContrib] at hsum
        omega
      · simp only [if_neg he] at hu
        exact h4 u n hu
    · intro u hu
      by_cases he : u = t
      · subst he
        simp at hu
      · simp only [if_neg he] at hu
        exact h5 u hu

theorem inv_reachable {reads : Bool → Option (List Entry)} {s : CState}
    (h : Reachable reads s) : Inv reads s := by
  induction h with
  | refl => exact inv_init reads
  | tail _ hstep ih => exact inv_step ih hstep

/-- Length of a thread's entry list (zero when its `ReadDir` fails). -/
def lenR (reads : Bool → Option (List Entry)) (t : Bool) : Nat :=
  ((reads t).getD []).length

/-- Remaining work of one thread. -/
def tMeasure (reads : Bool → Option (List Entry)) (t : Bool) : TState → Nat
  | .idle => 3 + lenR reads t
  | .acquired => 2 + lenR reads t
  | .looping rem _ => 1 + rem.length
  | .doneErr => 0
  | .doneOk _ => 0

/-- Remaining work of the system; it strictly decreases on every step, so
every maximal execution is finite. -/
def sysMeasure (reads : Bool → Option (List Entry)) (s : CState) : Nat :=
  tMeasure reads false (s.th false) + tMeasure reads true (s.th true)

theorem step_decreases {reads : Bool → Option (List Entry)} {s s' : CState}
    (hstep : Step reads s s') : sysMeasure reads s' < sysMeasure reads s := by
  cases hstep with
  | acquire t ht hl =>
    cases t <;> simp_all [sysMeasure, tMeasure, ht]
  | readFail t ht hr =>
    cases t <;> simp_all [sysMeasure, tMeasure, ht]
  | readOk t es ht hr =>
    cases t <;> simp_all [sysMeasure, tMeasure, ht, lenR, hr]
  | process t e rem acc ht =>
    cases t <;> simp_all [sysMeasure, tMeasure, ht]
  | finish t acc ht =>
    cases t <;> simp_all [sysMeasure, tMeasure, ht]

theorem stuck_all_done {reads : Bool → Option (List Entry)} {s : CState}
    (hInv : Inv reads s) (hstuck : ∀ s', ¬ Step reads s s') :
    ∀ t : Bool, (s.th t = .doneErr ∧ reads t = none) ∨
      ∃ es, reads t = some es ∧ s.th t = .doneOk (sumContrib es) := by
  obtain ⟨h1, h2, h3, h4, h5⟩ := hInv
  have hrun : ∀ u : Bool, ¬ InCrit (s.th u) := by
    intro u hu
    cases hc : s.th u with
    | acquired =>
      cases hr : reads u with
      | none => exact hstuck _ (Step.readFail s u hc hr)
      | some es => exact hstuck _ (Step.readOk s u es hc hr)
    | looping rem acc =>
      cases rem with
      | nil => exact hstuck _ (Step.finish s u acc hc)
      | cons e rest => exact hstuck _ (Step.process s u e rest acc hc)
    | idle => rw [hc] at hu; exact hu
    | doneErr => rw [hc] at hu; exact hu
    | doneOk n => rw [hc] at hu; exact hu
  intro t
  cases hc : s.th t with
  | idle =>
    exfalso
    cases hl : s.lock with
    | none => exact hstuck _ (Step.acquire s t hc hl)
    | some u => exact hrun u (h2 u hl)
  | acquired => exact absurd (by rw [hc]; trivial) (hrun t)
  | looping rem acc => exact absurd (by rw [hc]; trivial) (hrun t)
  | doneErr => exact Or.inl ⟨rfl, h5 t hc⟩
  | doneOk n =>
    obtain ⟨es, hes, hn⟩ := h4 t n hc
    exact Or.inr ⟨es, hes, congrArg TState.doneOk hn⟩

/-- Claim C1: for two overlapping `IndexAllRepos` invocations, in every
reachable state at most one invocation is inside the lock-guarded body; a
returned invocation (either exit path, error or success) never holds the
lock; every step strictly decreases the remaining work, so every maximal
execution is finite — the blocked invocation is never dropped; and in any
state where no step remains, both invocations have returned, each
reporting exactly the sum of its entries' contributions (no lost or
double-counted functions) or the read error it encountered. -/
theorem indexAllRepos_single_flight (reads : Bool → Option (List Entry))
    (s : CState) (h : Reachable reads s) :
    (∀ t u : Bool, InCrit (s.th t) → InCrit (s.th u) → t = u) ∧
    (∀ t : Bool, IsDone (s.th t) → s.lock ≠ some t) ∧
    (∀ s', Step reads s s' → sysMeasure reads s' < sysMeasure reads s) ∧
    ((∀ s', ¬ Step reads s s') →
      ∀ t : Bool, (s.th t = .doneErr ∧ reads t = none) ∨
        ∃ es, reads t = some es ∧ s.th t = .doneOk (sumContrib es)) := by
  have hInv := inv_reachable h
  refine ⟨?_, ?_, fun s' hs => step_decreases hs, fun hstuck => stuck_all_done hInv hstuck⟩
  · intro t u htc huc
    have h1 := hInv.1 t htc
    have h2 := hInv.1 u huc
    rw [h1] at h2
    exact Option.some.inj h2
  · intro t hdone hl
    have := hInv.2.1 t hl
    cases hc : s.th t <;> rw [hc] at hdone this <;> first | exact this | exact hdone

/-- A concrete directory for the witness run: one repository contributing
two functions and one entry whose indexing fails. -/
def readsW : Bool → Option (List Entry) := fun _ => some [.ok 2, .indexErr]

/-- Final state of the witness run: both invocations returned with total
2, lock free. -/
def finalBoth : CState := ⟨none, fun _ => .doneOk 2⟩

theorem cstate_eq {l1 l2 : Option Bool} {f g : Bool → TState}
    (hl : l1 = l2) (h : ∀ u, f u = g u) : (⟨l1, f⟩ : CState) = ⟨l2, g⟩ := by
  subst hl
  exact congrArg _ (funext h)

theorem reachable_cast {reads : Bool → Option (List Entry)} {s s' : CState}
    (h : Reachable reads s) (hl : s.lock = s'.lock)
    (ht : ∀ u, s.th u = s'.th u) : Reachable reads s' := by
  obtain ⟨l1, f⟩ := s
  obtain ⟨l2, g⟩ := s'
  exact cstate_eq hl ht ▸ h

theorem reach_finalBoth : Reachable readsW finalBoth := by
  have r0 : Reachable readsW initState := .refl
  have r1 := r0.tail (@Step.acquire readsW initState false rfl rfl)
  have r2 := r1.tail (Step.readOk _ false [.ok 2, .indexErr] rfl rfl)
  have r3 := r2.tail (Step.process _ false (.ok 2) [.indexErr] 0 rfl)
  have r4 := r3.tail (Step.process _ false .indexErr [] (0 + contrib (.ok 2)) rfl)
  have r5 := r4.tail (Step.finish _ false (0 + contrib (.ok 2) + contrib .indexErr) rfl)
  have r6 := r5.tail (Step.acquire _ true rfl rfl)
  have r7 := r6.tail (Step.readOk _ true [.ok 2, .indexErr] rfl rfl)
  have r8 := r7.tail (Step.process _ true (.ok 2) [.indexErr] 0 rfl)
  have r9 := r8.tail (Step.process _ true .indexErr [] (0 + contrib (.ok 2)) rfl)
  have r10 := r9.tail (Step.finish _ true (0 + contrib (.ok 2) + contrib .indexErr) rfl)
  exact reachable_cast r10 rfl (fun u => by cases u <;> rfl)

theorem indexAllRepos_single_flight_witness :
    finalBoth.th false = .doneOk 2 ∧ finalBoth.th true = .doneOk 2 ∧
      finalBoth.lock ≠ some false ∧ finalBoth.lock ≠ some true :=
  ⟨rfl, rfl,
   (indexAllRepos_single_flight readsW finalBoth reach_finalBoth).2.1 false trivial,
   (indexAllRepos_single_flight readsW finalBoth reach_finalBoth).2.1 true trivial⟩

end RagIndexer
